import Mathlib

/-!
Verification of the spacemap scan-time aggregation core: a shallow
embedding of the bounded top-N selector (`BoundedMinHeap`), the path
interner (`PathPool`), the single-pass categorizing aggregator
(`SinglePassCollector`), the shard merge (`ShardedCollector`), the
categorization strategies and the duplicate detector, together with
theorems settling the specification claims.

Paths are modelled as lists of components; `u64` byte counts are
modelled as `Nat` (all claimed equalities are preserved verbatim by
wrap-around arithmetic, so overflow is immaterial to them); the
`f64` percent field is modelled as an exact rational.
-/

namespace Spacemap

/-- A filesystem path, as a list of components.  `PathBuf::parent`
returns the path with the last component removed, and nothing for an
empty path. -/
abbrev FsPath := List String

/-- Model of `Path::parent`. -/
def parentOf (p : FsPath) : Option FsPath :=
  match p with
  | [] => none
  | _ :: _ => some p.dropLast

/-- Model of `types::FileMetadata`: path, size, optional lowercase
extension, optional modification time (in whole days of age). -/
structure FileMetadata where
  path : FsPath
  size : Nat
  extension : Option String
  modified : Option Nat
deriving DecidableEq

namespace BoundedMinHeap

/-!
`bounded_heap::BoundedMinHeap<T>` is a `BinaryHeap<Reverse<T>>` capped
at `capacity`.  Its contents are modelled as a list kept sorted
ascending by the ordering key `k` (the heap's `Ord`): `peek`/`pop`
act on the head, which is the minimum.
-/

/-- `BoundedMinHeap::push`: if the heap holds fewer than `cap` items
the item is inserted; otherwise it replaces the minimum exactly when
it is strictly greater than it, and is discarded otherwise. -/
def push (k : α → Nat) (cap : Nat) (st : List α) (x : α) : List α :=
  if st.length < cap then
    st.orderedInsert (fun a b => k a ≤ k b) x
  else
    match st with
    | [] => []
    | m :: rest =>
      if k m < k x then rest.orderedInsert (fun a b => k a ≤ k b) x
      else m :: rest

/-- `BoundedMinHeap::into_sorted_vec`: collect the contents and sort
them in descending order. -/
def into_sorted_vec (k : α → Nat) (st : List α) : List α :=
  List.insertionSort (fun a b => k b ≤ k a) st

/-- Folding `push` over a stream of items, starting from the empty
heap. -/
def pushAll (k : α → Nat) (cap : Nat) (items : List α) : List α :=
  items.foldl (push k cap) []

end BoundedMinHeap

/-- Model of `path_pool::PathPool`.  The source stores the interned
paths in a `Vec` and keeps a `HashMap` index mapping each stored path
to its position; the index is determined by the vector, so the state
is the vector alone and lookups are positional. -/
structure PathPool where
  paths : List FsPath
deriving DecidableEq

namespace PathPool

/-- `PathPool::new`. -/
def new : PathPool := ⟨[]⟩

/-- Position of the first occurrence of a path in the stored vector
(the id the `HashMap` index records for it). -/
def posOf (p : FsPath) : List FsPath → Nat
  | [] => 0
  | q :: rest => if q = p then 0 else posOf p rest + 1

/-- `PathPool::intern`: an already-stored path keeps its id (its
position); a new path is appended and gets id `paths.len()`. -/
def intern (pool : PathPool) (p : FsPath) : Nat × PathPool :=
  if p ∈ pool.paths then (posOf p pool.paths, pool)
  else (pool.paths.length, ⟨pool.paths ++ [p]⟩)

/-- `PathPool::get`: positional lookup of an id. -/
def get (pool : PathPool) (id : Nat) : Option FsPath :=
  pool.paths.get? id

/-- Interning a sequence of paths in order. -/
def internAll (pool : PathPool) (ps : List FsPath) : PathPool :=
  ps.foldl (fun pl p => (pl.intern p).2) pool

end PathPool

/-- Model of `types::Bucket` (the fields the collector populates).
`percent` is the `f64` percentage, modelled as an exact rational. -/
structure Bucket where
  key : String
  label : String
  bytes : Nat
  percent : ℚ
  file_count : Nat
deriving DecidableEq

/-- Model of `types::FileEntry`. -/
structure FileEntry where
  path : FsPath
  bytes : Nat
deriving DecidableEq

/-- Model of `types::DirEntry`. -/
structure DirEntry where
  path : FsPath
  bytes : Nat
deriving DecidableEq

/-- Model of `collector::CollectionResults`. -/
structure CollectionResults where
  buckets : List Bucket
  top_files : List FileEntry
  top_dirs : List DirEntry
deriving DecidableEq

/-- Upsert into the category-stats map
(`category_stats.entry(category).or_insert((0,0))` followed by
`entry.0 += size; entry.1 += 1`), with the `HashMap` modelled as an
association list from category key to `(bytes, file_count)`. -/
def updateStats (key : String) (size : Nat) :
    List (String × Nat × Nat) → List (String × Nat × Nat)
  | [] => [(key, size, 1)]
  | (k, b, c) :: rest =>
    if k = key then (k, b + size, c + 1) :: rest
    else (k, b, c) :: updateStats key size rest

/-- Upsert into the directory accumulator
(`*dir_accumulator.entry(path_id).or_insert(0) += size`), with the
`HashMap` modelled as an association list from path id to bytes. -/
def updateAccum (id : Nat) (size : Nat) :
    List (Nat × Nat) → List (Nat × Nat)
  | [] => [(id, size)]
  | (k, v) :: rest =>
    if k = id then (k, v + size) :: rest
    else (k, v) :: updateAccum id size rest

/-- Model of `collector::SinglePassCollector`.  The boxed
`dyn Categorizer` is modelled by its two methods as function fields;
the two `HashMap`s are association lists and the bounded min-heap of
`FileWithSize` (ordered by size alone) is a list sorted ascending by
its size key. -/
structure SinglePassCollector where
  categorize : FileMetadata → String
  get_label : String → String
  category_stats : List (String × Nat × Nat)
  top_files_heap : List (FsPath × Nat)
  dir_accumulator : List (Nat × Nat)
  path_pool : PathPool
  top_n : Nat
  should_collect_tops : Bool

namespace SinglePassCollector

/-- `SinglePassCollector::new`. -/
def new (categorize : FileMetadata → String) (get_label : String → String)
    (top_n : Nat) (should_collect_tops : Bool) : SinglePassCollector :=
  { categorize := categorize
    get_label := get_label
    category_stats := []
    top_files_heap := []
    dir_accumulator := []
    path_pool := PathPool.new
    top_n := top_n
    should_collect_tops := should_collect_tops }

/-- `SinglePassCollector::process_file`: categorize and update the
stats; when tops are collected, also push into the top-files heap and
accumulate the size against the interned parent directory. -/
def process_file (c : SinglePassCollector) (metadata : FileMetadata) :
    SinglePassCollector :=
  let size := metadata.size
  let category := c.categorize metadata
  let stats := updateStats category size c.category_stats
  if c.should_collect_tops then
    let heap := BoundedMinHeap.push Prod.snd c.top_n c.top_files_heap
      (metadata.path, size)
    match parentOf metadata.path with
    | some parent =>
      let r := c.path_pool.intern parent
      { c with
        category_stats := stats
        top_files_heap := heap
        dir_accumulator := updateAccum r.1 size c.dir_accumulator
        path_pool := r.2 }
    | none =>
      { c with category_stats := stats, top_files_heap := heap }
  else
    { c with category_stats := stats }

/-- `SinglePassCollector::finalize`: build the percent-annotated
bucket list sorted descending by bytes; when tops are collected,
drain the file heap and run the directory accumulator (ids resolved
through the pool) through a fresh bounded heap, each drained in
descending order; otherwise both top lists are empty. -/
def finalize (c : SinglePassCollector) (total_bytes : Nat) :
    CollectionResults :=
  let raw := c.category_stats.map (fun kv =>
    let percent : ℚ :=
      if 0 < total_bytes then ((kv.2.1 : ℚ) / (total_bytes : ℚ)) * 100
      else 0
    { key := kv.1
      label := c.get_label kv.1
      bytes := kv.2.1
      percent := percent
      file_count := kv.2.2 : Bucket })
  let buckets := List.insertionSort (fun a b : Bucket => b.bytes ≤ a.bytes) raw
  let top_files :=
    if c.should_collect_tops then
      (BoundedMinHeap.into_sorted_vec Prod.snd c.top_files_heap).map
        (fun f => { path := f.1, bytes := f.2 : FileEntry })
    else []
  let top_dirs :=
    if c.should_collect_tops then
      let entries := c.dir_accumulator.filterMap (fun pv =>
        (c.path_pool.get pv.1).map (fun p => (p, pv.2)))
      let dir_heap := entries.foldl (BoundedMinHeap.push Prod.snd c.top_n) []
      (BoundedMinHeap.into_sorted_vec Prod.snd dir_heap).map
        (fun d => { path := d.1, bytes := d.2 : DirEntry })
    else []
  { buckets := buckets, top_files := top_files, top_dirs := top_dirs }

/-- Processing a stream of records in order. -/
def processAll (c : SinglePassCollector) (files : List FileMetadata) :
    SinglePassCollector :=
  files.foldl process_file c

end SinglePassCollector

/-- `ShardedCollector::merge_collectors`, verbatim from the source:
the body is a stub that returns `collector1` unchanged, discarding
`collector2` (the source comments enumerate the merge it would
perform "in a full implementation"). -/
def merge_collectors (collector1 collector2 : SinglePassCollector) :
    SinglePassCollector :=
  collector1

/-- Model of `sharded_collector::ShardedCollector` (the `Arc<Mutex<..>>`
wrappers around the shards carry no algorithmic content and are
stripped). -/
structure ShardedCollector where
  shards : List SinglePassCollector
  top_n : Nat

namespace ShardedCollector

/-- `ShardedCollector::finalize`: take the first shard as base, fold
the remaining shards into it with `merge_collectors`, then finalize.
`shards.remove(0)` panics on an empty shard vector; that failure is
the `none` case. -/
def finalize (s : ShardedCollector) (total_bytes : Nat) :
    Option CollectionResults :=
  match s.shards with
  | [] => none
  | base :: rest =>
    some ((rest.foldl merge_collectors base).finalize total_bytes)

end ShardedCollector

/-- Insert-or-overwrite into an extension map
(`HashMap::insert` overwrite semantics), modelled as an association
list from extension to category name. -/
def insertExt (k v : String) :
    List (String × String) → List (String × String)
  | [] => [(k, v)]
  | (k0, v0) :: rest =>
    if k0 = k then (k0, v) :: rest
    else (k0, v0) :: insertExt k v rest

/-- Association-list lookup (`HashMap::get`). -/
def lookupExt (k : String) : List (String × String) → Option String
  | [] => none
  | (k0, v0) :: rest => if k0 = k then some v0 else lookupExt k rest

/-- Model of `config::CustomCategory` (the fields the categorizer
reads). -/
structure CustomCategory where
  name : String
  extensions : List String

/-- Model of `config::ExtensionRemap`. -/
structure ExtensionRemap where
  extensions : List String
  category : String

/-- Model of `config::SpacemapConfig` (the fields the categorizer
reads). -/
structure SpacemapConfig where
  categories : List CustomCategory
  remaps : List ExtensionRemap

namespace TypeCategorizer

/-- `TypeCategorizer::build_default_map`: the built-in extension-to-
category table. -/
def build_default_map : List (String × String) :=
  let step := fun (cat : String) (m : List (String × String)) (e : String) =>
    insertExt e cat m
  let m := ["jpg", "jpeg", "png", "gif", "bmp", "svg", "webp", "ico",
    "heic", "heif"].foldl (step "Images") []
  let m := ["mp4", "avi", "mkv", "mov", "wmv", "flv", "webm", "m4v",
    "mpg", "mpeg"].foldl (step "Videos") m
  let m := ["mp3", "wav", "flac", "aac", "ogg", "m4a", "wma",
    "opus"].foldl (step "Audio") m
  let m := ["pdf", "doc", "docx", "txt", "odt", "rtf", "tex",
    "md"].foldl (step "Documents") m
  let m := ["xls", "xlsx", "csv", "ods"].foldl (step "Spreadsheets") m
  let m := ["ppt", "pptx", "odp"].foldl (step "Presentations") m
  let m := ["zip", "tar", "gz", "bz2", "7z", "rar", "xz", "zst",
    "tgz"].foldl (step "Archives") m
  let m := ["rs", "py", "js", "ts", "java", "c", "cpp", "h", "hpp",
    "go", "rb", "php", "swift", "kt"].foldl (step "Code") m
  let m := ["json", "xml", "yaml", "yml", "toml", "ini", "conf",
    "cfg"].foldl (step "Config") m
  let m := ["exe", "dll", "so", "dylib", "bin", "app", "deb",
    "rpm"].foldl (step "Binaries") m
  let m := ["iso", "img", "dmg", "vdi", "vmdk"].foldl
    (step "Disk Images") m
  let m := ["db", "sqlite", "sql", "mdb"].foldl (step "Databases") m
  let m := insertExt "log" "Logs" m
  ["ttf", "otf", "woff", "woff2"].foldl (step "Fonts") m

/-- `TypeCategorizer::with_config`: the default map, overlaid with
custom category extensions and then with remaps (both lowercased,
later entries overriding earlier ones). -/
def with_config (config : Option SpacemapConfig) :
    List (String × String) :=
  match config with
  | none => build_default_map
  | some cfg =>
    let m := cfg.categories.foldl (fun m cat =>
      cat.extensions.foldl (fun m e =>
        insertExt e.toLower cat.name m) m) build_default_map
    cfg.remaps.foldl (fun m remap =>
      remap.extensions.foldl (fun m e =>
        insertExt e.toLower remap.category m) m) m

/-- `TypeCategorizer::categorize`: look the extension up in the map,
falling back to "Other" when the extension is absent or unmapped. -/
def categorize (extension_map : List (String × String))
    (metadata : FileMetadata) : String :=
  ((metadata.extension).bind (fun ext => lookupExt ext extension_map)).getD
    "Other"

end TypeCategorizer

namespace SizeCategorizer

/-- Rust `Vec::dedup`: remove consecutive duplicates. -/
def dedupConsec : List Nat → List Nat
  | [] => []
  | [a] => [a]
  | a :: b :: rest =>
    if a = b then dedupConsec (b :: rest)
    else a :: dedupConsec (b :: rest)

/-- `SizeCategorizer::create_buckets`: sort, dedup, and label each
custom boundary. -/
def create_buckets (bounds : List Nat) : List (Nat × String) :=
  (dedupConsec (List.insertionSort (fun a b => a ≤ b) bounds)).map
    (fun size => (size, toString size ++ "+ bytes"))

/-- The fixed default size boundaries. -/
def default_buckets : List (Nat × String) :=
  [(0, "0-1 KiB"),
   (1024, "1-10 KiB"),
   (10 * 1024, "10-100 KiB"),
   (100 * 1024, "100 KiB-1 MiB"),
   (1024 * 1024, "1-10 MiB"),
   (10 * 1024 * 1024, "10-100 MiB"),
   (100 * 1024 * 1024, "100 MiB-1 GiB"),
   (1024 * 1024 * 1024, "1+ GiB")]

/-- `SizeCategorizer::new`: custom boundaries are sorted/deduped,
otherwise the fixed default boundaries are used. -/
def new (custom_buckets : Option (List Nat)) : List (Nat × String) :=
  match custom_buckets with
  | some bounds => create_buckets bounds
  | none => default_buckets

/-- `SizeCategorizer::find_bucket`: scan the boundaries from the
highest index down and return the first whose boundary is at most the
size; if none qualifies, fall back to the first bucket
(`buckets[0]`, which panics on an empty bucket list — the `none`
case). -/
def find_bucket (buckets : List (Nat × String)) (size : Nat) :
    Option String :=
  match buckets.reverse.find? (fun p => p.1 ≤ size) with
  | some p => some p.2
  | none => buckets.head?.map (fun p => p.2)

end SizeCategorizer

/-- Model of `duplicates::DuplicateGroup`.  The blake3 hex digest is
modelled as the hashed byte sequence itself (a perfect hash); none of
the verified claims depend on properties of the digest encoding. -/
structure DuplicateGroup where
  size : Nat
  hash : List Nat
  paths : List FsPath
  wasted_space : Nat
deriving DecidableEq

/-- Model of `duplicates::DuplicateFinder`: the size-groups map as an
association list from size to the paths added at that size. -/
structure DuplicateFinder where
  size_groups : List (Nat × List FsPath)

/-- The file-content oracle: what a path's bytes read as, or `none`
when opening/reading the file fails. -/
abbrev FileContents := FsPath → Option (List Nat)

namespace DuplicateFinder

/-- `DuplicateFinder::new`. -/
def new : DuplicateFinder := ⟨[]⟩

/-- Append a path to the group keyed by `key`
(`entry(key).or_default().push(path)`). -/
def addToGroup (key : List Nat) (p : FsPath) :
    List (List Nat × List FsPath) → List (List Nat × List FsPath)
  | [] => [(key, [p])]
  | (k, ps) :: rest =>
    if k = key then (k, ps ++ [p]) :: rest
    else (k, ps) :: addToGroup key p rest

/-- `DuplicateFinder::add_file`. -/
def add_file (f : DuplicateFinder) (p : FsPath) (size : Nat) :
    DuplicateFinder :=
  ⟨(addToGroup' p size f.size_groups)⟩
where
  addToGroup' (p : FsPath) (size : Nat) :
      List (Nat × List FsPath) → List (Nat × List FsPath)
    | [] => [(size, [p])]
    | (k, ps) :: rest =>
      if k = size then (k, ps ++ [p]) :: rest
      else (k, ps) :: addToGroup' p size rest

/-- `DuplicateFinder::hash_file_partial` with a 4096-byte budget:
hash of the first 4096 bytes (fewer if the file is shorter); fails
when the file cannot be read. -/
def hash_file_quick (fs : FileContents) (p : FsPath) :
    Option (List Nat) :=
  (fs p).map (fun c => c.take 4096)

/-- `DuplicateFinder::hash_file_full`: streaming hash of the whole
content; fails when the file cannot be read. -/
def hash_file_full (fs : FileContents) (p : FsPath) :
    Option (List Nat) :=
  fs p

/-- `DuplicateFinder::find_duplicates`: size groups of at least two
members are refined by quick hash, surviving quick-hash groups of at
least two by full hash, and every full-hash group of more than one
path is emitted; the result is sorted descending by wasted space.
Unreadable files are silently dropped from their group. -/
def find_duplicates (fs : FileContents) (f : DuplicateFinder) :
    List DuplicateGroup :=
  let duplicates := f.size_groups.flatMap (fun sp =>
    if sp.2.length < 2 then []
    else
      let quick_hashes := sp.2.foldl (fun acc p =>
        match hash_file_quick fs p with
        | some h => addToGroup h p acc
        | none => acc) []
      quick_hashes.flatMap (fun qc =>
        if qc.2.length < 2 then []
        else
          let full_hashes := qc.2.foldl (fun acc p =>
            match hash_file_full fs p with
            | some h => addToGroup h p acc
            | none => acc) []
          full_hashes.filterMap (fun fc =>
            if 1 < fc.2.length then
              some { size := sp.1
                     hash := fc.1
                     paths := fc.2
                     wasted_space := sp.1 * (fc.2.length - 1) }
            else none)))
  List.insertionSort (fun a b => b.wasted_space ≤ a.wasted_space)
    duplicates

end DuplicateFinder

/-!  ## Helper lemmas  -/

/-- Sorting with the flipped key comparison yields a list that is
pairwise descending in the key. -/
theorem sorted_insertionSort_descByKey {α : Type} (w : α → Nat)
    (l : List α) :
    List.Sorted (fun a b => w b ≤ w a)
      (List.insertionSort (fun a b => w b ≤ w a) l) := by
  haveI : IsTotal α (fun a b => w b ≤ w a) :=
    ⟨fun a b => le_total (w b) (w a)⟩
  haveI : IsTrans α (fun a b => w b ≤ w a) :=
    ⟨fun a b c hab hbc => le_trans hbc hab⟩
  exact List.sorted_insertionSort _ l

/-- Ordered insertion by an ascending key preserves key-sortedness. -/
theorem sorted_orderedInsert_ascByKey {α : Type} (w : α → Nat)
    (x : α) (st : List α)
    (h : List.Sorted (fun a b => w a ≤ w b) st) :
    List.Sorted (fun a b => w a ≤ w b)
      (st.orderedInsert (fun a b => w a ≤ w b) x) := by
  haveI : IsTotal α (fun a b => w a ≤ w b) :=
    ⟨fun a b => le_total (w a) (w b)⟩
  haveI : IsTrans α (fun a b => w a ≤ w b) :=
    ⟨fun a b c hab hbc => le_trans hab hbc⟩
  exact List.Sorted.orderedInsert x st h

/-- Members of the dedup of a sorted list are members of the list. -/
theorem mem_dedupConsec {x : Nat} :
    ∀ {l : List Nat}, x ∈ SizeCategorizer.dedupConsec l → x ∈ l
  | [], h => by simp [SizeCategorizer.dedupConsec] at h
  | [a], h => by simpa [SizeCategorizer.dedupConsec] using h
  | a :: b :: t, h => by
    rw [SizeCategorizer.dedupConsec] at h
    split at h
    · exact List.mem_cons_of_mem a (mem_dedupConsec h)
    · rcases List.mem_cons.mp h with rfl | h
      · exact List.mem_cons_self _ _
      · exact List.mem_cons_of_mem a (mem_dedupConsec h)

/-- `Vec::dedup` preserves sortedness. -/
theorem dedupConsec_sorted :
    ∀ {l : List Nat}, l.Sorted (· ≤ ·) →
      (SizeCategorizer.dedupConsec l).Sorted (· ≤ ·)
  | [], _ => by simp [SizeCategorizer.dedupConsec]
  | [a], _ => by simp [SizeCategorizer.dedupConsec]
  | a :: b :: t, h => by
    rw [SizeCategorizer.dedupConsec]
    split
    · exact dedupConsec_sorted h.of_cons
    · rw [List.sorted_cons]
      refine ⟨fun x hx => ?_, dedupConsec_sorted h.of_cons⟩
      exact List.rel_of_sorted_cons h x (mem_dedupConsec hx)

/-- The bucket list built by `SizeCategorizer::new` is sorted
ascending in its boundaries. -/
theorem new_sorted_by_boundary (custom : Option (List Nat)) :
    List.Pairwise (fun p q : Nat × String => p.1 ≤ q.1)
      (SizeCategorizer.new custom) := by
  cases custom with
  | none => decide
  | some bounds =>
    have hs : (List.insertionSort (fun a b => a ≤ b) bounds).Sorted
        (fun a b => a ≤ b) := by
      haveI : IsTotal Nat (fun a b => a ≤ b) := ⟨le_total⟩
      haveI : IsTrans Nat (fun a b => a ≤ b) :=
        ⟨fun _ _ _ hab hbc => le_trans hab hbc⟩
      exact List.sorted_insertionSort _ bounds
    have hd := dedupConsec_sorted hs
    simp only [SizeCategorizer.new, SizeCategorizer.create_buckets]
    rw [List.pairwise_map]
    exact hd

/-- Scanning a boundary-descending list from the front, `find?` picks
a maximal element among those with boundary at most `size`. -/
theorem find_last_le (size : Nat) :
    ∀ (r : List (Nat × String)),
      List.Pairwise (fun a b => b.1 ≤ a.1) r →
      (∃ p ∈ r, p.1 ≤ size) →
      ∃ p ∈ r, r.find? (fun p => p.1 ≤ size) = some p ∧ p.1 ≤ size ∧
        ∀ q ∈ r, q.1 ≤ size → q.1 ≤ p.1
  | [], _, hex => by rcases hex with ⟨p, hp, _⟩; cases hp
  | x :: rest, hsort, hex => by
    by_cases hx : x.1 ≤ size
    · refine ⟨x, List.mem_cons_self x rest, ?_, hx, ?_⟩
      · rw [List.find?_cons_of_pos]
        simp [hx]
      · intro q hq hqs
        rcases List.mem_cons.mp hq with rfl | hq
        · exact le_refl _
        · exact (List.pairwise_cons.mp hsort).1 q hq
    · have hex' : ∃ p ∈ rest, p.1 ≤ size := by
        rcases hex with ⟨p, hp, hps⟩
        rcases List.mem_cons.mp hp with rfl | hp
        · exact absurd hps hx
        · exact ⟨p, hp, hps⟩
      rcases find_last_le size rest (List.pairwise_cons.mp hsort).2 hex'
        with ⟨p, hp, hfind, hps, hmax⟩
      refine ⟨p, List.mem_cons_of_mem x hp, ?_, hps, ?_⟩
      · rw [List.find?_cons_of_neg, hfind]
        simp [hx]
      · intro q hq hqs
        rcases List.mem_cons.mp hq with rfl | hq
        · exact absurd hqs hx
        · exact hmax q hq hqs

/-!  ## Claim theorems  -/

/-- C4: for every selector state, `into_sorted_vec` returns exactly
the retained items (a permutation of the state) sorted in descending
order, and for capacity 3 with push sequence [5, 2, 8, 10, 1] the
drained result is [10, 8, 5]. -/
theorem C4_drain_descending :
    (∀ st : List Nat,
      List.Sorted (fun a b => a ≥ b) (BoundedMinHeap.into_sorted_vec id st)) ∧
    (∀ st : List Nat, (BoundedMinHeap.into_sorted_vec id st).Perm st) ∧
    BoundedMinHeap.into_sorted_vec id
      (BoundedMinHeap.pushAll id 3 [5, 2, 8, 10, 1]) = [10, 8, 5] := by
  refine ⟨?_, ?_, by decide⟩
  · intro st
    have h := sorted_insertionSort_descByKey id st
    exact h.imp (fun hab => hab)
  · intro st
    exact List.perm_insertionSort _ st

/-- C10: a record whose extension is absent, or not present in the
type categorizer's extension map (default map plus custom categories
and remaps), is assigned the category key "Other". -/
theorem C10_unmapped_extension_is_Other
    (config : Option SpacemapConfig) (metadata : FileMetadata)
    (h : metadata.extension = none ∨
      ∀ ext, metadata.extension = some ext →
        lookupExt ext (TypeCategorizer.with_config config) = none) :
    TypeCategorizer.categorize (TypeCategorizer.with_config config)
      metadata = "Other" := by
  unfold TypeCategorizer.categorize
  cases hext : metadata.extension with
  | none => rfl
  | some ext =>
    rcases h with h | h
    · rw [hext] at h; cases h
    · rw [Option.some_bind, h ext hext]; rfl

/-- Witness for C10: the default map does not contain "qqq", and a
record with that extension is categorized as "Other". -/
theorem C10_witness :
    TypeCategorizer.categorize (TypeCategorizer.with_config none)
      { path := ["a", "f"], size := 1, extension := some "qqq",
        modified := none } = "Other" :=
  C10_unmapped_extension_is_Other none _
    (Or.inr (fun ext hx => by
      cases hx
      decide))

/-- C1: contrary to the claim, merging two shards and finalizing does
not equal processing the concatenated inputs through one collector:
`merge_collectors` returns its first argument unchanged and discards
the second shard, so the second shard's bytes and file counts are
lost.  Shard 1 processed one 100-byte file and shard 2 one 200-byte
file; the merged finalization reports one bucket with (100 bytes,
1 file) while the single-collector concatenation reports (300 bytes,
2 files). -/
theorem C1_merge_discards_second_shard :
    (let mk := SinglePassCollector.new (fun _ => "All") (fun k => k) 10 false
     let shard1 := mk.process_file
       { path := ["a", "f1"], size := 100, extension := none, modified := none }
     let shard2 := mk.process_file
       { path := ["b", "f2"], size := 200, extension := none, modified := none }
     (ShardedCollector.finalize { shards := [shard1, shard2], top_n := 10 }
        300).map
       (fun r => r.buckets.map (fun b => (b.bytes, b.file_count))) =
         some [(100, 1)]) ∧
    (let mk := SinglePassCollector.new (fun _ => "All") (fun k => k) 10 false
     let single := (mk.process_file
       { path := ["a", "f1"], size := 100, extension := none,
         modified := none }).process_file
       { path := ["b", "f2"], size := 200, extension := none, modified := none }
     (single.finalize 300).buckets.map (fun b => (b.bytes, b.file_count)) =
       [(300, 2)]) :=
  ⟨rfl, rfl⟩

/-- C7 counterexample: with the custom boundary list [100] a 50-byte
file is assigned the "100+ bytes" bucket even though no boundary is
at most 50, so the assigned bucket is not "the bucket whose boundary
is the highest boundary less than or equal to the file's size" (no
such bucket exists, yet one is assigned). -/
theorem C7_counterexample :
    SizeCategorizer.find_bucket (SizeCategorizer.new (some [100])) 50 =
      some "100+ bytes" ∧
    ∀ p ∈ SizeCategorizer.new (some [100]), ¬ p.1 ≤ 50 := by
  decide

/-- C7 (amended): for the size-bucket strategy with default or custom
boundaries, a file whose size is at least some boundary is assigned
the bucket whose boundary is the highest boundary at most the size;
a file smaller than every boundary falls back to the first
(lowest-boundary) bucket.  With the default boundaries the lowest
boundary is 0, so the original rule covers every file. -/
theorem C7_size_bucket_assignment (custom : Option (List Nat))
    (size : Nat) :
    ((∃ p ∈ SizeCategorizer.new custom, p.1 ≤ size) →
      ∃ p ∈ SizeCategorizer.new custom,
        SizeCategorizer.find_bucket (SizeCategorizer.new custom) size =
          some p.2 ∧ p.1 ≤ size ∧
        ∀ q ∈ SizeCategorizer.new custom, q.1 ≤ size → q.1 ≤ p.1) ∧
    ((∀ p ∈ SizeCategorizer.new custom, size < p.1) →
      SizeCategorizer.find_bucket (SizeCategorizer.new custom) size =
        (SizeCategorizer.new custom).head?.map (fun p => p.2)) := by
  constructor
  · intro hex
    have hsort : List.Pairwise (fun a b : Nat × String => b.1 ≤ a.1)
        (SizeCategorizer.new custom).reverse :=
      List.pairwise_reverse.mpr (new_sorted_by_boundary custom)
    have hex' : ∃ p ∈ (SizeCategorizer.new custom).reverse, p.1 ≤ size := by
      rcases hex with ⟨p, hp, hps⟩
      exact ⟨p, List.mem_reverse.mpr hp, hps⟩
    rcases find_last_le size _ hsort hex' with ⟨p, hp, hfind, hps, hmax⟩
    refine ⟨p, List.mem_reverse.mp hp, ?_, hps, ?_⟩
    · unfold SizeCategorizer.find_bucket
      rw [hfind]
    · intro q hq hqs
      exact hmax q (List.mem_reverse.mpr hq) hqs
  · intro hall
    have hnone : (SizeCategorizer.new custom).reverse.find?
        (fun p => p.1 ≤ size) = none := by
      rw [List.find?_eq_none]
      intro a ha
      have := hall a (List.mem_reverse.mp ha)
      simp only [decide_eq_true_eq]
      omega
    unfold SizeCategorizer.find_bucket
    rw [hnone]

/-- Witness for C7: with custom boundaries [10, 20] and size 15 the
assigned bucket is the one with boundary 10, the highest boundary at
most 15. -/
theorem C7_witness :
    ∃ p ∈ SizeCategorizer.new (some [10, 20]),
      SizeCategorizer.find_bucket (SizeCategorizer.new (some [10, 20]))
        15 = some p.2 ∧ p.1 ≤ 15 ∧
      ∀ q ∈ SizeCategorizer.new (some [10, 20]), q.1 ≤ 15 → q.1 ≤ p.1 :=
  (C7_size_bucket_assignment (some [10, 20]) 15).1 (by decide)

/-- Appending entries after the first occurrence of a stored path
does not change its position. -/
theorem posOf_append_of_mem {p : FsPath} :
    ∀ {l₁ : List FsPath}, p ∈ l₁ → ∀ (l₂ : List FsPath),
      PathPool.posOf p (l₁ ++ l₂) = PathPool.posOf p l₁
  | [], h, _ => absurd h (List.not_mem_nil p)
  | q :: rest, h, l₂ => by
    rw [List.cons_append, PathPool.posOf, PathPool.posOf]
    split
    · rfl
    · rename_i hq
      have hp : p ∈ rest := by
        rcases List.mem_cons.mp h with rfl | hp
        · exact absurd rfl hq
        · exact hp
      rw [posOf_append_of_mem hp l₂]

/-- The position of a path not stored in the prefix. -/
theorem posOf_append_of_not_mem {p : FsPath} :
    ∀ {l₁ : List FsPath}, p ∉ l₁ → ∀ (l₂ : List FsPath),
      PathPool.posOf p (l₁ ++ l₂) = l₁.length + PathPool.posOf p l₂
  | [], _, _ => by simp [PathPool.posOf]
  | q :: rest, h, l₂ => by
    rw [List.cons_append, PathPool.posOf]
    split
    · rename_i hq
      exact absurd (hq ▸ List.mem_cons_self q rest) h
    · rw [posOf_append_of_not_mem (fun hp => h (List.mem_cons_of_mem q hp)) l₂]
      simp [List.length_cons]
      omega

/-- `intern` returns the position of the path in the updated pool. -/
theorem intern_fst_eq_posOf (pool : PathPool) (p : FsPath) :
    (pool.intern p).1 = PathPool.posOf p (pool.intern p).2.paths := by
  unfold PathPool.intern
  split
  · rfl
  · rename_i h
    show pool.paths.length = PathPool.posOf p (pool.paths ++ [p])
    rw [posOf_append_of_not_mem h]
    simp [PathPool.posOf]

/-- After interning, the path is stored. -/
theorem mem_intern_snd (pool : PathPool) (p : FsPath) :
    p ∈ (pool.intern p).2.paths := by
  unfold PathPool.intern
  split
  · assumption
  · exact List.mem_append_right _ (List.mem_singleton.mpr rfl)

/-- `intern` only ever appends to the stored path vector. -/
theorem intern_snd_paths (pool : PathPool) (p : FsPath) :
    ∃ t, (pool.intern p).2.paths = pool.paths ++ t := by
  unfold PathPool.intern
  split
  · exact ⟨[], by simp⟩
  · exact ⟨[p], rfl⟩

/-- A sequence of interns only ever appends to the stored paths. -/
theorem internAll_paths :
    ∀ (qs : List FsPath) (pool : PathPool),
      ∃ t, (pool.internAll qs).paths = pool.paths ++ t
  | [], pool => ⟨[], by simp [PathPool.internAll]⟩
  | q :: qs, pool => by
    obtain ⟨t0, h0⟩ := intern_snd_paths pool q
    obtain ⟨t1, h1⟩ := internAll_paths qs (pool.intern q).2
    exact ⟨t0 ++ t1, by
      show ((pool.intern q).2.internAll qs).paths = _
      rw [h1, h0, List.append_assoc]⟩

/-- Interning an already-stored path returns its index and leaves the
pool unchanged. -/
theorem intern_of_mem {pool : PathPool} {p : FsPath}
    (h : p ∈ pool.paths) :
    pool.intern p = (PathPool.posOf p pool.paths, pool) := by
  unfold PathPool.intern
  rw [if_pos h]

/-- The id of a stored path is stable under any further interns. -/
theorem intern_id_stable (pool : PathPool) (qs : List FsPath)
    (p : FsPath) (h : p ∈ pool.paths) :
    ((pool.internAll qs).intern p).1 = PathPool.posOf p pool.paths := by
  obtain ⟨t, ht⟩ := internAll_paths qs pool
  have hmem : p ∈ (pool.internAll qs).paths := by
    rw [ht]; exact List.mem_append_left t h
  rw [intern_of_mem hmem, ht, posOf_append_of_mem h]

/-- What is stored in the updated pool. -/
theorem mem_intern_snd_iff (pool : PathPool) (q p : FsPath) :
    p ∈ (pool.intern q).2.paths ↔ p ∈ pool.paths ∨ p = q := by
  unfold PathPool.intern
  split
  · rename_i h
    constructor
    · exact Or.inl
    · rintro (hp | rfl)
      · exact hp
      · exact h
  · show p ∈ pool.paths ++ [q] ↔ _
    simp

/-- A path is stored after a sequence of interns iff it was stored
before or appears in the sequence. -/
theorem mem_internAll_iff :
    ∀ (ps : List FsPath) (pool : PathPool) (p : FsPath),
      p ∈ (pool.internAll ps).paths ↔ p ∈ pool.paths ∨ p ∈ ps
  | [], pool, p => by simp [PathPool.internAll]
  | q :: ps, pool, p => by
    show p ∈ ((pool.intern q).2.internAll ps).paths ↔ _
    rw [mem_internAll_iff ps (pool.intern q).2 p, mem_intern_snd_iff]
    simp only [List.mem_cons]
    tauto

/-- C5: in every pool reached by a sequence of interns, interning an
already-seen path returns the id previously assigned to it even after
arbitrary intervening interns; a never-seen path gets the next
sequential id (the number of ids issued so far); "seen" is exactly
"appeared in the intern sequence"; and the first distinct path gets
id 0. -/
theorem C5_intern_sequential_ids (ps qs : List FsPath) (p : FsPath) :
    ((((PathPool.new.internAll ps).intern p).2.internAll qs).intern p).1 =
      ((PathPool.new.internAll ps).intern p).1 ∧
    (p ∉ (PathPool.new.internAll ps).paths →
      ((PathPool.new.internAll ps).intern p).1 =
        (PathPool.new.internAll ps).paths.length) ∧
    (p ∈ (PathPool.new.internAll ps).paths ↔ p ∈ ps) ∧
    (PathPool.new.intern p).1 = 0 := by
  refine ⟨?_, ?_, ?_, ?_⟩
  · rw [intern_id_stable _ qs p (mem_intern_snd _ p),
      intern_fst_eq_posOf]
  · intro h
    unfold PathPool.intern
    rw [if_neg h]
  · rw [mem_internAll_iff]
    simp [PathPool.new]
  · simp [PathPool.intern, PathPool.new]

/-- Witness for C5: after interning ["a"] and ["b"], the unseen path
["c"] receives the next sequential id, the pool's current size. -/
theorem C5_witness :
    ((PathPool.new.internAll [["a"], ["b"]]).intern ["c"]).1 =
      (PathPool.new.internAll [["a"], ["b"]]).paths.length :=
  (C5_intern_sequential_ids [["a"], ["b"]] [] ["c"]).2.1 (by decide)

/-- C9: every bucket produced by finalization carries
percent = bytes / total_bytes × 100 when total_bytes > 0 and
percent = 0 when total_bytes = 0 (the division is guarded). -/
theorem C9_percent_guarded (c : SinglePassCollector) (total_bytes : Nat) :
    ∀ b ∈ (c.finalize total_bytes).buckets,
      b.percent = if 0 < total_bytes
        then ((b.bytes : ℚ) / (total_bytes : ℚ)) * 100 else 0 := by
  intro b hb
  simp only [SinglePassCollector.finalize] at hb
  rw [List.Perm.mem_iff (List.perm_insertionSort _ _)] at hb
  rcases List.mem_map.mp hb with ⟨kv, _, rfl⟩
  rfl

/-- Witness for C9: one 100-byte file against a 200-byte total gives
a bucket whose percent is 100/200 × 100. -/
theorem C9_witness :
    (Bucket.mk "X" "X" 100 ((((100 : Nat) : ℚ) / ((200 : Nat) : ℚ)) * 100)
      1).percent =
      if 0 < 200 then
        (((Bucket.mk "X" "X" 100 ((((100 : Nat) : ℚ) / ((200 : Nat) : ℚ)) *
          100) 1).bytes : ℚ) / ((200 : Nat) : ℚ)) * 100
      else 0 :=
  C9_percent_guarded
    ((SinglePassCollector.new (fun _ => "X") (fun s => s) 0 false).process_file
      { path := ["a"], size := 100, extension := none, modified := none })
    200
    (Bucket.mk "X" "X" 100 ((((100 : Nat) : ℚ) / ((200 : Nat) : ℚ)) * 100) 1)
    (by
      rw [show (((SinglePassCollector.new (fun _ => "X") (fun s => s) 0
          false).process_file
          { path := ["a"], size := 100, extension := none,
            modified := none }).finalize 200).buckets =
        [Bucket.mk "X" "X" 100
          ((((100 : Nat) : ℚ) / ((200 : Nat) : ℚ)) * 100) 1] from rfl]
      exact List.mem_singleton.mpr rfl)

/-- The collect-tops flag is unchanged by `process_file`. -/
theorem process_file_flag (c : SinglePassCollector) (m : FileMetadata) :
    (c.process_file m).should_collect_tops = c.should_collect_tops := by
  simp only [SinglePassCollector.process_file]
  split
  · split <;> rfl
  · rfl

/-- The collect-tops flag is unchanged by `processAll`. -/
theorem processAll_flag :
    ∀ (files : List FileMetadata) (c : SinglePassCollector),
      (c.processAll files).should_collect_tops = c.should_collect_tops
  | [], _ => rfl
  | f :: fs, c => by
    show ((c.process_file f).processAll fs).should_collect_tops = _
    rw [processAll_flag fs, process_file_flag]

/-- `process_file` updates the stats map the same way in all of its
branches. -/
theorem process_file_stats (c : SinglePassCollector) (m : FileMetadata) :
    (c.process_file m).category_stats =
      updateStats (c.categorize m) m.size c.category_stats := by
  simp only [SinglePassCollector.process_file]
  split
  · split <;> rfl
  · rfl

/-- The stats upsert never produces an empty map. -/
theorem updateStats_ne_nil (k : String) (s : Nat) :
    ∀ (l : List (String × Nat × Nat)), updateStats k s l ≠ []
  | [] => by simp [updateStats]
  | (k0, b, c) :: rest => by
    unfold updateStats
    split <;> simp

/-- A nonempty stats map stays nonempty under further processing. -/
theorem processAll_stats_ne :
    ∀ (files : List FileMetadata) (c : SinglePassCollector),
      c.category_stats ≠ [] → (c.processAll files).category_stats ≠ []
  | [], _, h => h
  | f :: fs, c, _ => by
    show ((c.process_file f).processAll fs).category_stats ≠ []
    exact processAll_stats_ne fs _ (by
      rw [process_file_stats]
      exact updateStats_ne_nil _ _ _)

/-- With the flag off, finalization leaves both top lists empty. -/
theorem finalize_tops_empty (c : SinglePassCollector) (t : Nat)
    (h : c.should_collect_tops = false) :
    (c.finalize t).top_files = [] ∧ (c.finalize t).top_dirs = [] := by
  simp [SinglePassCollector.finalize, h]

/-- Finalization produces one bucket per stats entry. -/
theorem finalize_buckets_length (c : SinglePassCollector) (t : Nat) :
    (c.finalize t).buckets.length = c.category_stats.length := by
  simp only [SinglePassCollector.finalize]
  rw [(List.perm_insertionSort _ _).length_eq, List.length_map]

/-- C8: with collect-tops disabled and a non-empty input stream,
finalization produces non-empty category buckets but empty top_files
and top_dirs lists. -/
theorem C8_disabled_tops_nonempty_buckets (cat : FileMetadata → String)
    (lbl : String → String) (n : Nat) (files : List FileMetadata)
    (total : Nat) (h : files ≠ []) :
    (((SinglePassCollector.new cat lbl n false).processAll files).finalize
      total).buckets ≠ [] ∧
    (((SinglePassCollector.new cat lbl n false).processAll files).finalize
      total).top_files = [] ∧
    (((SinglePassCollector.new cat lbl n false).processAll files).finalize
      total).top_dirs = [] := by
  have hflag : ((SinglePassCollector.new cat lbl n false).processAll
      files).should_collect_tops = false := by
    rw [processAll_flag]
    rfl
  have htops := finalize_tops_empty _ total hflag
  refine ⟨?_, htops.1, htops.2⟩
  have hstats : ((SinglePassCollector.new cat lbl n false).processAll
      files).category_stats ≠ [] := by
    cases files with
    | nil => exact absurd rfl h
    | cons f fs =>
      show (((SinglePassCollector.new cat lbl n false).process_file
        f).processAll fs).category_stats ≠ []
      exact processAll_stats_ne fs _ (by
        rw [process_file_stats]
        exact updateStats_ne_nil _ _ _)
  intro hnil
  have hlen := finalize_buckets_length
    ((SinglePassCollector.new cat lbl n false).processAll files) total
  rw [hnil] at hlen
  exact hstats (List.length_eq_zero.mp hlen.symm)

/-- Witness for C8: a single 5-byte file with tops disabled yields one
bucket and empty top lists. -/
theorem C8_witness :
    (((SinglePassCollector.new (fun _ => "X") (fun s => s) 3 false).processAll
      [{ path := ["a", "f"], size := 5, extension := none,
         modified := none }]).finalize 5).buckets ≠ [] ∧
    (((SinglePassCollector.new (fun _ => "X") (fun s => s) 3 false).processAll
      [{ path := ["a", "f"], size := 5, extension := none,
         modified := none }]).finalize 5).top_files = [] ∧
    (((SinglePassCollector.new (fun _ => "X") (fun s => s) 3 false).processAll
      [{ path := ["a", "f"], size := 5, extension := none,
         modified := none }]).finalize 5).top_dirs = [] :=
  C8_disabled_tops_nonempty_buckets (fun _ => "X") (fun s => s) 3
    [{ path := ["a", "f"], size := 5, extension := none, modified := none }]
    5 (List.cons_ne_nil _ _)

/-- Each stats upsert adds the file's size to the total stats bytes. -/
theorem updateStats_bytes_sum (k : String) (s : Nat) :
    ∀ (l : List (String × Nat × Nat)),
      ((updateStats k s l).map (fun kv => kv.2.1)).sum =
        (l.map (fun kv => kv.2.1)).sum + s
  | [] => by simp [updateStats]
  | (k0, b, c) :: rest => by
    unfold updateStats
    split
    · simp
      omega
    · simp only [List.map_cons, List.sum_cons, updateStats_bytes_sum k s rest]
      omega

/-- `process_file` adds the file's size to the total stats bytes. -/
theorem process_file_bytes_sum (c : SinglePassCollector) (m : FileMetadata) :
    (((c.process_file m).category_stats).map (fun kv => kv.2.1)).sum =
      ((c.category_stats).map (fun kv => kv.2.1)).sum + m.size := by
  rw [process_file_stats, updateStats_bytes_sum]

/-- `processAll` adds the stream's total size to the stats bytes. -/
theorem processAll_bytes_sum :
    ∀ (files : List FileMetadata) (c : SinglePassCollector),
      (((c.processAll files).category_stats).map (fun kv => kv.2.1)).sum =
        ((c.category_stats).map (fun kv => kv.2.1)).sum +
          (files.map FileMetadata.size).sum
  | [], _ => by simp [SinglePassCollector.processAll]
  | f :: fs, c => by
    show (((c.process_file f).processAll fs).category_stats.map
      (fun kv => kv.2.1)).sum = _
    rw [processAll_bytes_sum fs, process_file_bytes_sum]
    simp only [List.map_cons, List.sum_cons]
    omega

/-- Finalization preserves the total stats bytes into the buckets. -/
theorem finalize_bytes_sum (c : SinglePassCollector) (t : Nat) :
    ((c.finalize t).buckets.map Bucket.bytes).sum =
      ((c.category_stats).map (fun kv => kv.2.1)).sum := by
  simp only [SinglePassCollector.finalize]
  rw [List.Perm.sum_eq ((List.perm_insertionSort _ _).map Bucket.bytes)]
  rw [List.map_map]
  rfl

/-- C2: after any sequence of `process_file` calls on one collector,
the sum of bytes over all finalized category buckets equals the sum
of the sizes of the processed records. -/
theorem C2_bucket_bytes_total (cat : FileMetadata → String)
    (lbl : String → String) (n : Nat) (flag : Bool)
    (files : List FileMetadata) (total : Nat) :
    ((((SinglePassCollector.new cat lbl n flag).processAll files).finalize
      total).buckets.map Bucket.bytes).sum =
      (files.map FileMetadata.size).sum := by
  rw [finalize_bytes_sum, processAll_bytes_sum]
  simp [SinglePassCollector.new]

/-- C6: every emitted duplicate group has at least two paths and
wasted_space = size × (paths − 1), and the returned list is sorted
descending by wasted_space. -/
theorem C6_duplicate_groups (fs : FileContents) (f : DuplicateFinder) :
    (∀ g ∈ f.find_duplicates fs, 2 ≤ g.paths.length ∧
      g.wasted_space = g.size * (g.paths.length - 1)) ∧
    List.Sorted (fun a b => b.wasted_space ≤ a.wasted_space)
      (f.find_duplicates fs) := by
  constructor
  · intro g hg
    simp only [DuplicateFinder.find_duplicates] at hg
    rw [List.Perm.mem_iff (List.perm_insertionSort _ _)] at hg
    rcases List.mem_flatMap.mp hg with ⟨sp, _, hg2⟩
    by_cases hlen : sp.2.length < 2
    · rw [if_pos hlen] at hg2
      cases hg2
    · rw [if_neg hlen] at hg2
      rcases List.mem_flatMap.mp hg2 with ⟨qc, _, hg3⟩
      by_cases hq : qc.2.length < 2
      · rw [if_pos hq] at hg3
        cases hg3
      · rw [if_neg hq] at hg3
        rcases List.mem_filterMap.mp hg3 with ⟨fc, _, hsome⟩
        by_cases hfl : 1 < fc.2.length
        · rw [if_pos hfl] at hsome
          obtain rfl := Option.some.inj hsome
          refine ⟨?_, rfl⟩
          show 2 ≤ fc.2.length
          omega
        · rw [if_neg hfl] at hsome
          cases hsome
  · exact sorted_insertionSort_descByKey DuplicateGroup.wasted_space _

/-- Witness for C6: two 3-byte files with identical content form one
group of two paths with wasted_space 3. -/
theorem C6_witness :
    2 ≤ (DuplicateGroup.mk 3 [1, 2, 3] [["a"], ["b"]] 3).paths.length ∧
    (DuplicateGroup.mk 3 [1, 2, 3] [["a"], ["b"]] 3).wasted_space =
      (DuplicateGroup.mk 3 [1, 2, 3] [["a"], ["b"]] 3).size *
        ((DuplicateGroup.mk 3 [1, 2, 3] [["a"], ["b"]] 3).paths.length - 1) :=
  (C6_duplicate_groups (fun _ => some [1, 2, 3])
    ⟨[(3, [["a"], ["b"]])]⟩).1
    (DuplicateGroup.mk 3 [1, 2, 3] [["a"], ["b"]] 3) (by decide)

/-- Invariant for folding `push` over a stream: the initial heap
contents plus the stream plus the already-discarded items are, as a
multiset, the final heap contents plus a final discarded list; the
heap stays sorted, never exceeds the capacity, is exactly full
whenever anything has been discarded, and every discarded item is at
most every retained item. -/
theorem C3_aux (cap : Nat) :
    ∀ (items st disc : List Nat),
      List.Sorted (fun a b : Nat => id a ≤ id b) st →
      st.length ≤ cap →
      (disc ≠ [] → st.length = cap) →
      (∀ d ∈ disc, ∀ r ∈ st, d ≤ r) →
      ∃ disc' : List Nat,
        ((st : Multiset Nat) + (items : Multiset Nat) +
            (disc : Multiset Nat) =
          ((items.foldl (BoundedMinHeap.push id cap) st : List Nat) :
            Multiset Nat) + (disc' : Multiset Nat)) ∧
        List.Sorted (fun a b : Nat => id a ≤ id b)
          (items.foldl (BoundedMinHeap.push id cap) st) ∧
        (items.foldl (BoundedMinHeap.push id cap) st).length ≤ cap ∧
        (disc' ≠ [] →
          (items.foldl (BoundedMinHeap.push id cap) st).length = cap) ∧
        (∀ d ∈ disc', ∀ r ∈ items.foldl (BoundedMinHeap.push id cap) st,
          d ≤ r) := by
  intro items
  induction items with
  | nil =>
    intro st disc h1 h2 h3 h4
    exact ⟨disc, by simp, h1, h2, h3, h4⟩
  | cons x items ih =>
    intro st disc h1 h2 h3 h4
    rw [List.foldl_cons]
    by_cases hlt : st.length < cap
    · -- room left: insert unconditionally, nothing discarded so far
      have hdisc : disc = [] := by
        by_contra hne
        have := h3 hne
        omega
      subst hdisc
      have hpush : BoundedMinHeap.push id cap st x =
          st.orderedInsert (fun a b => id a ≤ id b) x := by
        simp [BoundedMinHeap.push, hlt]
      rw [hpush]
      have hsorted := sorted_orderedInsert_ascByKey id x st h1
      have hlen := List.orderedInsert_length
        (fun a b : Nat => id a ≤ id b) st x
      obtain ⟨disc', heq, hs, hl, hc, hd⟩ :=
        ih (st.orderedInsert (fun a b => id a ≤ id b) x) [] hsorted
          (by omega) (fun hk => absurd rfl hk) (fun d hd => by cases hd)
      refine ⟨disc', ?_, hs, hl, hc, hd⟩
      rw [← heq]
      have hper : ((st.orderedInsert (fun a b => id a ≤ id b) x :
          List Nat) : Multiset Nat) = x ::ₘ (st : Multiset Nat) := by
        rw [Multiset.cons_coe]
        exact Multiset.coe_eq_coe.mpr (List.perm_orderedInsert _ _ _)
      rw [hper]
      simp only [← Multiset.cons_coe, ← Multiset.singleton_add]
      abel
    · cases st with
      | nil =>
        -- capacity is zero: the item is dropped
        have hcap : cap = 0 := by
          simp only [List.length_nil] at hlt
          omega
        have hpush : BoundedMinHeap.push id cap ([] : List Nat) x = [] := by
          unfold BoundedMinHeap.push
          rw [if_neg hlt]
        rw [hpush]
        obtain ⟨disc', heq, hs, hl, hc, hd⟩ :=
          ih [] (x :: disc) List.sorted_nil (by omega)
            (fun _ => by simp only [List.length_nil]; omega)
            (fun d hd r hr => by cases hr)
        refine ⟨disc', ?_, hs, hl, hc, hd⟩
        rw [← heq]
        simp only [← Multiset.cons_coe, ← Multiset.singleton_add]
        abel
      | cons m rest =>
        have hlt' : ¬ rest.length + 1 < cap := by
          simpa using hlt
        have hfull : rest.length + 1 = cap := by
          simp only [List.length_cons] at h2
          omega
        by_cases hmx : id m < id x
        · -- evict the minimum, keep the new item
          have hpush : BoundedMinHeap.push id cap (m :: rest) x =
              rest.orderedInsert (fun a b => id a ≤ id b) x := by
            unfold BoundedMinHeap.push
            rw [if_neg hlt]
            show (if id m < id x then
              rest.orderedInsert (fun a b => id a ≤ id b) x
              else m :: rest) = _
            rw [if_pos hmx]
          rw [hpush]
          have hsorted := sorted_orderedInsert_ascByKey id x rest h1.of_cons
          have hlen := List.orderedInsert_length
            (fun a b : Nat => id a ≤ id b) rest x
          have hmx' : m < x := hmx
          obtain ⟨disc', heq, hs, hl, hc, hd⟩ :=
            ih (rest.orderedInsert (fun a b => id a ≤ id b) x) (m :: disc)
              hsorted (by omega) (fun _ => by omega)
              (by
                intro d hd r' hr'
                have hr'' := (List.mem_orderedInsert _).mp hr'
                rcases List.mem_cons.mp hd with rfl | hd
                · rcases hr'' with rfl | hr''
                  · omega
                  · exact List.rel_of_sorted_cons h1 r' hr''
                · have hdm : d ≤ m :=
                    h4 d hd m (List.mem_cons_self m rest)
                  rcases hr'' with rfl | hr''
                  · omega
                  · exact h4 d hd r' (List.mem_cons_of_mem m hr''))
          refine ⟨disc', ?_, hs, hl, hc, hd⟩
          rw [← heq]
          have hper : ((rest.orderedInsert (fun a b => id a ≤ id b) x :
              List Nat) : Multiset Nat) = x ::ₘ (rest : Multiset Nat) := by
            rw [Multiset.cons_coe]
            exact Multiset.coe_eq_coe.mpr (List.perm_orderedInsert _ _ _)
          rw [hper]
          simp only [← Multiset.cons_coe, ← Multiset.singleton_add]
          abel
        · -- the new item is not larger than the minimum: discard it
          have hpush : BoundedMinHeap.push id cap (m :: rest) x =
              m :: rest := by
            unfold BoundedMinHeap.push
            rw [if_neg hlt]
            show (if id m < id x then
              rest.orderedInsert (fun a b => id a ≤ id b) x
              else m :: rest) = _
            rw [if_neg hmx]
          rw [hpush]
          have hxm : x ≤ m := by
            simp only [id_eq] at hmx
            omega
          obtain ⟨disc', heq, hs, hl, hc, hd⟩ :=
            ih (m :: rest) (x :: disc) h1 h2 (fun _ => by
              simp only [List.length_cons]
              omega)
              (by
                intro d hd r' hr'
                rcases List.mem_cons.mp hd with rfl | hd
                · rcases List.mem_cons.mp hr' with rfl | hr'
                  · exact hxm
                  · have : id r' ≤ id r' := le_refl _
                    have hmr : m ≤ r' := List.rel_of_sorted_cons h1 r' hr'
                    omega
                · exact h4 d hd r' hr')
          refine ⟨disc', ?_, hs, hl, hc, hd⟩
          rw [← heq]
          simp only [← Multiset.cons_coe, ← Multiset.singleton_add]
          abel

/-- C3: after any sequence of `M` pushes into a selector of capacity
`K`, the heap holds exactly `min K M` items, and every discarded item
(the input multiset minus the retained multiset) is at most every
retained item; `K = 0` retains nothing. -/
theorem C3_retention (cap : Nat) (items : List Nat) :
    (BoundedMinHeap.pushAll id cap items).length = min cap items.length ∧
    ∀ r ∈ BoundedMinHeap.pushAll id cap items,
      ∀ d ∈ ((items : Multiset Nat) -
          (BoundedMinHeap.pushAll id cap items : Multiset Nat)),
        d ≤ r := by
  show (items.foldl (BoundedMinHeap.push id cap) []).length =
      min cap items.length ∧
    ∀ r ∈ items.foldl (BoundedMinHeap.push id cap) [],
      ∀ d ∈ ((items : Multiset Nat) -
          ((items.foldl (BoundedMinHeap.push id cap) [] : List Nat) :
            Multiset Nat)), d ≤ r
  obtain ⟨disc', heq, _, hl, hc, hd⟩ :=
    C3_aux cap items [] [] List.sorted_nil (by simp)
      (fun hk => absurd rfl hk) (fun d hd => by cases hd)
  have heq' : (items : Multiset Nat) =
      ((items.foldl (BoundedMinHeap.push id cap) [] : List Nat) :
        Multiset Nat) + (disc' : Multiset Nat) := by
    simpa using heq
  constructor
  · have hcard := congrArg Multiset.card heq'
    simp only [Multiset.coe_card, Multiset.card_add] at hcard
    by_cases hd0 : disc' = []
    · subst hd0
      simp only [List.length_nil, Nat.add_zero] at hcard
      omega
    · have hfull := hc hd0
      have hpos : 0 < disc'.length := List.length_pos.mpr hd0
      omega
  · intro r hr d hd2
    rw [heq', add_tsub_cancel_left] at hd2
    exact hd d (Multiset.mem_coe.mp hd2) r hr

/-- Witness for C3: capacity 1 with pushes [5, 3] retains exactly one
item, and the discarded 3 is at most the retained 5. -/
theorem C3_witness :
    (BoundedMinHeap.pushAll id 1 [5, 3]).length =
      min 1 ([5, 3] : List Nat).length ∧ (3 : Nat) ≤ 5 :=
  ⟨(C3_retention 1 [5, 3]).1,
    (C3_retention 1 [5, 3]).2 5 (by decide) 3 (by decide)⟩

end Spacemap
